import Mathlib

/-!
Verification of the rambutan essay-annotation tool against its specification.

This file is a shallow embedding, in Lean 4, of the algorithmic core of the
repository: the per-page undo/redo history engine and text-edit coalescing
(src/unnamed/part_003, the useGradingSession hook), the pointer-driven
move/resize/multi-move mutations (src/hooks/useAnnotationCanvas.ts), the
student split/merge operations (src/unnamed/part_003), and the Sauvola
adaptive binarization (src/services/imageProcessing.ts).

Modelling conventions:
  - JavaScript numbers are modelled as rationals (ℚ); the properties proved
    here are order-theoretic and algebraic, not floating-point facts.
  - JavaScript arrays are Lean lists; object spreads are structure updates;
    `JSON.parse(JSON.stringify(x))` deep copies are the identity, since Lean
    values are immutable.
  - React `setState` updates are explicit state-passing on a state record.
  - The source type `Annotation` is embedded as the structure `Annot`
    (shortened name); its fields follow src/types.ts exactly.
  - `Math.sqrt` has no exact counterpart on ℚ, so the binarization routine
    is parameterised by a function `sqrtQ : ℚ → ℚ`; the one fact any model
    of `Math.sqrt` satisfies that the proofs use is `sqrtQ 0 = 0`.
-/

namespace Rambutan

/-- Source: `clamp` in src/hooks/useAnnotationCanvas.ts, line 20:
`Math.max(min, Math.min(max, val))`. -/
def clampQ (val lo hi : ℚ) : ℚ := max lo (min hi val)

/-- Source: `Point` in src/types.ts. -/
structure Point where
  x : ℚ
  y : ℚ
deriving DecidableEq

/-- Source: `Rect` in src/types.ts. -/
structure Rect where
  x : ℚ
  y : ℚ
  width : ℚ
  height : ℚ
deriving DecidableEq

/-- Source: `GradingMode` in src/types.ts. -/
inductive GradingMode where
  | content
  | communicative
  | organisation
  | language
  | general
  | select
  | stamper
deriving DecidableEq

/-- Source: the `type` field of `Annotation` in src/types.ts. -/
inductive AnnType where
  | dot
  | rect
  | stamp
deriving DecidableEq

/-- Source: `StudentScore` in src/types.ts. -/
structure StudentScore where
  content : ℚ
  communicative : ℚ
  organisation : ℚ
  language : ℚ
deriving DecidableEq

/-- Source: the `justifications` field of `Student` in src/types.ts. -/
structure Justifications where
  content : String
  communicative : String
  organisation : String
  language : String
deriving DecidableEq

/-- Source: the `stampData` field of `Annotation` in src/types.ts. -/
structure StampData where
  scores : StudentScore
  total : ℚ
  grader : String
  date : String
deriving DecidableEq

/-- Source: `Annotation` in src/types.ts (name shortened to `Annot`).
Optional fields of the TypeScript interface are `Option` fields here. -/
structure Annot where
  id : String
  mode : GradingMode
  pageIndex : ℕ
  type : AnnType
  x : Option ℚ := none
  y : Option ℚ := none
  rects : Option (List Rect) := none
  text : Option String := none
  code : Option String := none
  correction : Option String := none
  number : Option ℕ := none
  isElaboration : Option Bool := none
  stampData : Option StampData := none
deriving DecidableEq

/-- Source: `Student` in src/types.ts. -/
structure Student where
  id : String
  name : String
  images : List String
  annotations : List Annot
  scores : StudentScore
  justifications : Justifications
  timeSpent : ℚ
deriving DecidableEq

/-! ## Page filtering

The history engine of src/unnamed/part_003 works on the current page's
annotations, obtained with `filter(a => a.pageIndex === currentImageIndex)`,
and keeps the other pages' annotations with the complementary filter. -/

/-- The current page's annotations:
`annotations.filter(a => a.pageIndex === currentImageIndex)`. -/
def pageAnns (p : ℕ) (l : List Annot) : List Annot :=
  l.filter (fun a => decide (a.pageIndex = p))

/-- The other pages' annotations:
`annotations.filter(a => a.pageIndex !== currentImageIndex)`. -/
def otherAnns (p : ℕ) (l : List Annot) : List Annot :=
  l.filter (fun a => decide (a.pageIndex ≠ p))

/-- Every annotation in the list belongs to page `p`. -/
def pagePure (p : ℕ) (l : List Annot) : Prop := ∀ a ∈ l, a.pageIndex = p

theorem pageAnns_append (p : ℕ) (l₁ l₂ : List Annot) :
    pageAnns p (l₁ ++ l₂) = pageAnns p l₁ ++ pageAnns p l₂ :=
  List.filter_append _ _

theorem otherAnns_append (p : ℕ) (l₁ l₂ : List Annot) :
    otherAnns p (l₁ ++ l₂) = otherAnns p l₁ ++ otherAnns p l₂ :=
  List.filter_append _ _

theorem pagePure_pageAnns (p : ℕ) (l : List Annot) : pagePure p (pageAnns p l) := by
  intro a ha
  have := List.mem_filter.mp ha
  simpa using this.2

theorem pageAnns_of_pure {p : ℕ} {l : List Annot} (h : pagePure p l) :
    pageAnns p l = l := by
  apply List.filter_eq_self.mpr
  intro a ha
  simpa using h a ha

theorem otherAnns_of_pure {p : ℕ} {l : List Annot} (h : pagePure p l) :
    otherAnns p l = [] := by
  apply List.filter_eq_nil_iff.mpr
  intro a ha
  simpa using h a ha

theorem pageAnns_otherAnns (p : ℕ) (l : List Annot) :
    pageAnns p (otherAnns p l) = [] := by
  apply List.filter_eq_nil_iff.mpr
  intro a ha
  have := List.mem_filter.mp ha
  simpa using this.2

theorem otherAnns_otherAnns (p : ℕ) (l : List Annot) :
    otherAnns p (otherAnns p l) = otherAnns p l := by
  apply List.filter_eq_self.mpr
  intro a ha
  exact (List.mem_filter.mp ha).2

/-- Restoring a page: the page part of `otherPageAnns ++ restored` is exactly
`restored` whenever `restored` is a pure page-`p` list. -/
theorem pageAnns_restore {p : ℕ} (l₀ : List Annot) {l' : List Annot}
    (h : pagePure p l') : pageAnns p (otherAnns p l₀ ++ l') = l' := by
  rw [pageAnns_append, pageAnns_otherAnns, pageAnns_of_pure h, List.nil_append]

theorem otherAnns_restore {p : ℕ} (l₀ : List Annot) {l' : List Annot}
    (h : pagePure p l') : otherAnns p (otherAnns p l₀ ++ l') = otherAnns p l₀ := by
  rw [otherAnns_append, otherAnns_otherAnns, otherAnns_of_pure h, List.append_nil]

/-! ## The history engine (src/unnamed/part_003)

State of `useGradingSession` relevant to the history claims, collapsed to the
current student and the current page's history key.  In the source, a missing
entry `history[historyKey]` and the entry `{past: [], future: []}` are
observationally identical in every operation (`prev[historyKey] || {past: [],
future: []}` on write, an early return on empty/absent on undo/redo), so the
embedding represents both as empty lists.  The typing-coalescing refs
(`historyRefs.current.isTyping` and the 1000 ms `typingTimeout`) are modelled
by a flag together with the time of the last `updateAnnotation` call: at a
call arriving at time `t`, the flag reads true iff it was set and the timeout
scheduled for `lastTime + 1000` has not fired, i.e. `t < lastTime + 1000`. -/

structure HState where
  anns : List Annot
  past : List (List Annot)
  future : List (List Annot)
  isTyping : Bool
  lastTime : ℚ
deriving DecidableEq

/-- Source: `recordHistory` in src/unnamed/part_003, lines 74-81: push a deep
copy of the current page's annotations onto `past` and clear `future`. -/
def recordHistory (p : ℕ) (s : HState) : HState :=
  { s with past := s.past ++ [pageAnns p s.anns], future := [] }

/-- Source: `addAnnotation` in src/unnamed/part_003, lines 83-86. -/
def addAnnot (p : ℕ) (ann : Annot) (record : Bool) (s : HState) : HState :=
  let s1 := if record then recordHistory p s else s
  { s1 with anns := s1.anns ++ [ann] }

/-- Source: `deleteAnnotation` in src/unnamed/part_003, lines 216-219. -/
def deleteAnnot (p : ℕ) (id : String) (s : HState) : HState :=
  let s1 := recordHistory p s
  { s1 with anns := s1.anns.filter (fun a => decide (a.id ≠ id)) }

/-- Source: `deleteAnnotations` in src/unnamed/part_003, lines 221-228; an
empty id list returns before recording history. -/
def deleteAnnots (p : ℕ) (ids : List String) (s : HState) : HState :=
  if ids.isEmpty then s
  else
    let s1 := recordHistory p s
    { s1 with anns := s1.anns.filter (fun a => !(ids.contains a.id)) }

/-- A committed drag gesture: at pointer-down the page's annotations are
snapshotted (`historyRefs.current.dragStartSnapshot`, useAnnotationCanvas.ts
lines 89-92), pointer-moves transform the annotation list (abstracted here as
`f`), and pointer-up pushes the pre-drag snapshot onto `past` with
`future: []` (useAnnotationCanvas.ts lines 324-331). -/
def commitDrag (p : ℕ) (f : List Annot → List Annot) (s : HState) : HState :=
  { s with anns := f s.anns, past := s.past ++ [pageAnns p s.anns], future := [] }

/-- Source: `performUndo` in src/unnamed/part_003, lines 189-197: no-op on
empty `past`; otherwise pop the last snapshot, push the current page state on
the front of `future`, and restore the popped snapshot as the page's list
(the student keeps `otherPageAnns ++ previousPageAnns`). -/
def performUndo (p : ℕ) (s : HState) : HState :=
  match s.past.getLast? with
  | none => s
  | some previousPageAnns =>
      { s with
        anns := otherAnns p s.anns ++ previousPageAnns,
        past := s.past.dropLast,
        future := pageAnns p s.anns :: s.future }

/-- Source: `performRedo` in src/unnamed/part_003, lines 199-207: symmetric to
`performUndo`, shifting from the front of `future`. -/
def performRedo (p : ℕ) (s : HState) : HState :=
  match s.future with
  | [] => s
  | nextPageAnns :: rest =>
      { s with
        anns := otherAnns p s.anns ++ nextPageAnns,
        past := s.past ++ [pageAnns p s.anns],
        future := rest }

/-- A `Partial<Annotation>` update object, as passed to `updateAnnotation`. -/
structure AnnUpdate where
  id : Option String := none
  mode : Option GradingMode := none
  pageIndex : Option ℕ := none
  type : Option AnnType := none
  x : Option ℚ := none
  y : Option ℚ := none
  rects : Option (List Rect) := none
  text : Option String := none
  code : Option String := none
  correction : Option String := none
  number : Option ℕ := none
  isElaboration : Option Bool := none
  stampData : Option StampData := none
deriving DecidableEq

/-- The object spread `{ ...a, ...updates }`: fields present in the update
replace the annotation's fields. -/
def applyAnnUpdate (a : Annot) (u : AnnUpdate) : Annot :=
  { id := u.id.getD a.id
    mode := u.mode.getD a.mode
    pageIndex := u.pageIndex.getD a.pageIndex
    type := u.type.getD a.type
    x := u.x.or a.x
    y := u.y.or a.y
    rects := u.rects.or a.rects
    text := u.text.or a.text
    code := u.code.or a.code
    correction := u.correction.or a.correction
    number := u.number.or a.number
    isElaboration := u.isElaboration.or a.isElaboration
    stampData := u.stampData.or a.stampData }

/-- Source: `updateAnnotation` in src/unnamed/part_003, lines 209-214.  The
call arrives at time `now`.  If the typing flag is not (effectively) set, a
history snapshot is recorded first and the flag is set; in every case the
idle timeout is re-armed (modelled by `lastTime := now`) and the update is
shallow-merged into the matching annotation. -/
def updateAnnot (p : ℕ) (now : ℚ) (id : String) (updates : AnnUpdate)
    (s : HState) : HState :=
  let typingNow := s.isTyping && decide (now < s.lastTime + 1000)
  let s1 := if typingNow then s else recordHistory p s
  { s1 with
    isTyping := true,
    lastTime := now,
    anns := s1.anns.map (fun a => if a.id = id then applyAnnUpdate a updates else a) }

/-! ## Claim C1: undo/redo inverse law -/

/-- A structural mutation on the current page, in the sense of claim C1:
`addAnnotation`, `deleteAnnotation`, `deleteAnnotations`, or a committed drag
gesture (whose cumulative geometric effect on the annotation list is an
arbitrary function). -/
inductive Mutation where
  | add (ann : Annot) (record : Bool)
  | del (id : String)
  | delMany (ids : List String)
  | drag (f : List Annot → List Annot)

/-- Whether the mutation pushes a history snapshot: all of them do, except
`addAnnotation(ann, false)` and `deleteAnnotations([])`. -/
def recordsHistory : Mutation → Bool
  | .add _ record => record
  | .del _ => true
  | .delMany ids => !ids.isEmpty
  | .drag _ => true

def applyMutation (p : ℕ) : Mutation → HState → HState
  | .add ann record => addAnnot p ann record
  | .del id => deleteAnnot p id
  | .delMany ids => deleteAnnots p ids
  | .drag f => commitDrag p f

def applyMutations (p : ℕ) (ms : List Mutation) (s : HState) : HState :=
  ms.foldl (fun st m => applyMutation p m st) s

theorem applyMutation_past (p : ℕ) (m : Mutation) (s : HState)
    (h : recordsHistory m = true) :
    (applyMutation p m s).past = s.past ++ [pageAnns p s.anns] ∧
    (applyMutation p m s).future = [] := by
  cases m with
  | add ann record =>
      cases record with
      | false => simp [recordsHistory] at h
      | true => simp [applyMutation, addAnnot, recordHistory]
  | del id => simp [applyMutation, deleteAnnot, recordHistory]
  | delMany ids =>
      have hne : ids.isEmpty = false := by
        simp [recordsHistory] at h
        simpa using h
      simp [applyMutation, deleteAnnots, hne, recordHistory]
  | drag f => simp [applyMutation, commitDrag]

/-- Applying a sequence of recording mutations appends exactly one snapshot
per mutation to `past`; the first appended snapshot is the initial page
state, every appended snapshot is page-pure, and `future` ends up empty. -/
theorem applyMutations_spec (p : ℕ) :
    ∀ (ms : List Mutation) (s : HState),
      (∀ m ∈ ms, recordsHistory m = true) → ms ≠ [] →
      ∃ L, (applyMutations p ms s).past = s.past ++ L ∧
        L.length = ms.length ∧ (∀ l ∈ L, pagePure p l) ∧
        L.head? = some (pageAnns p s.anns) := by
  intro ms
  induction ms with
  | nil => intro s _ hne; exact absurd rfl hne
  | cons m ms ih =>
      intro s hrec _
      have hm : recordsHistory m = true := hrec m (List.mem_cons_self _ _)
      have h1 := applyMutation_past p m s hm
      have happ : applyMutations p (m :: ms) s
          = applyMutations p ms (applyMutation p m s) := rfl
      by_cases hms : ms = []
      · subst hms
        refine ⟨[pageAnns p s.anns], ?_, rfl, ?_, rfl⟩
        · simpa [applyMutations] using h1.1
        · intro l hl
          simp at hl
          subst hl
          exact pagePure_pageAnns p s.anns
      · obtain ⟨L, hL1, hL2, hL3, hL4⟩ :=
          ih (applyMutation p m s) (fun m' hm' => hrec m' (List.mem_cons_of_mem _ hm')) hms
        refine ⟨pageAnns p s.anns :: L, ?_, by simp [hL2], ?_, rfl⟩
        · rw [happ, hL1, h1.1]
          simp
        · intro l hl
          rcases List.mem_cons.mp hl with h | h
          · subst h; exact pagePure_pageAnns p s.anns
          · exact hL3 l h

theorem performUndo_concat {p : ℕ} {s : HState} {q : List (List Annot)}
    {a : List Annot} (h : s.past = q ++ [a]) :
    performUndo p s =
      { s with anns := otherAnns p s.anns ++ a, past := q,
               future := pageAnns p s.anns :: s.future } := by
  have h1 : s.past.getLast? = some a := by rw [h]; exact List.getLast?_concat _
  have h2 : s.past.dropLast = q := by rw [h]; exact List.dropLast_concat
  rw [performUndo, h1, h2]

/-- Iterated undo pops the last `n` snapshots of `past` and lands the page on
the earliest popped snapshot (or leaves the page alone when `n = 0`). -/
theorem undo_iter (p : ℕ) :
    ∀ (n : ℕ) (s : HState) (q L : List (List Annot)),
      s.past = q ++ L → L.length = n → (∀ l ∈ L, pagePure p l) →
      ((performUndo p)^[n] s).past = q ∧
      pageAnns p ((performUndo p)^[n] s).anns = L.headD (pageAnns p s.anns) := by
  intro n
  induction n with
  | zero =>
      intro s q L hpast hlen _
      have : L = [] := List.length_eq_zero.mp hlen
      subst this
      simp at hpast
      exact ⟨by simpa using hpast, by simp⟩
  | succ n ih =>
      intro s q L hpast hlen hpure
      rcases List.eq_nil_or_concat L with h | ⟨L', a, rfl⟩
      · subst h; simp at hlen
      rw [List.concat_eq_append] at hpast hlen hpure ⊢
      have hpa : pagePure p a := hpure a (by simp)
      have hstep := performUndo_concat (p := p) (s := s)
        (q := q ++ L') (a := a) (by rw [hpast, List.append_assoc])
      have hanns1 : pageAnns p (performUndo p s).anns = a := by
        rw [hstep]; exact pageAnns_restore _ hpa
      have hlen' : L'.length = n := by
        have := hlen; simpa using this
      have hpure' : ∀ l ∈ L', pagePure p l := fun l hl => hpure l (by simp [hl])
      have hpast' : (performUndo p s).past = q ++ L' := by rw [hstep]
      have ihres := ih (performUndo p s) q L' hpast' hlen' hpure'
      rw [Function.iterate_succ_apply]
      refine ⟨ihres.1, ?_⟩
      rw [ihres.2, hanns1]
      cases L' <;> simp

/-- Undoing `n` times and then redoing `n` times round-trips the history
stacks, the page's annotation list, and the other pages' annotations,
provided the last `n` entries of `past` are page-pure snapshots. -/
theorem redo_undo_iter (p : ℕ) :
    ∀ (n : ℕ) (s : HState) (q L : List (List Annot)),
      s.past = q ++ L → L.length = n → (∀ l ∈ L, pagePure p l) →
      ((performRedo p)^[n] ((performUndo p)^[n] s)).past = s.past ∧
      ((performRedo p)^[n] ((performUndo p)^[n] s)).future = s.future ∧
      pageAnns p ((performRedo p)^[n] ((performUndo p)^[n] s)).anns
        = pageAnns p s.anns ∧
      otherAnns p ((performRedo p)^[n] ((performUndo p)^[n] s)).anns
        = otherAnns p s.anns := by
  intro n
  induction n with
  | zero => intro s q L _ _ _; simp
  | succ n ih =>
      intro s q L hpast hlen hpure
      rcases List.eq_nil_or_concat L with h | ⟨L', a, rfl⟩
      · subst h; simp at hlen
      rw [List.concat_eq_append] at hpast hlen hpure
      have hpa : pagePure p a := hpure a (by simp)
      have hstep := performUndo_concat (p := p) (s := s)
        (q := q ++ L') (a := a) (by rw [hpast, List.append_assoc])
      have hu_past : (performUndo p s).past = q ++ L' := by rw [hstep]
      have hu_future : (performUndo p s).future = pageAnns p s.anns :: s.future := by
        rw [hstep]
      have hu_page : pageAnns p (performUndo p s).anns = a := by
        rw [hstep]; exact pageAnns_restore _ hpa
      have hu_other : otherAnns p (performUndo p s).anns = otherAnns p s.anns := by
        rw [hstep]; exact otherAnns_restore _ hpa
      have hlen' : L'.length = n := by have := hlen; simpa using this
      have hpure' : ∀ l ∈ L', pagePure p l := fun l hl => hpure l (by simp [hl])
      have ihres := ih (performUndo p s) q L' hu_past hlen' hpure'
      set r := (performRedo p)^[n] ((performUndo p)^[n] (performUndo p s)) with hr
      have hr_future : r.future = pageAnns p s.anns :: s.future := by
        rw [ihres.2.1, hu_future]
      have hredo : performRedo p r =
          { r with
            anns := otherAnns p r.anns ++ pageAnns p s.anns,
            past := r.past ++ [pageAnns p r.anns],
            future := s.future } := by
        rw [performRedo, hr_future]
      have goal_eq :
          (performRedo p)^[n + 1] ((performUndo p)^[n + 1] s) = performRedo p r := by
        rw [Function.iterate_succ_apply (performUndo p), Function.iterate_succ_apply' (performRedo p)]
      rw [goal_eq, hredo]
      have hpure_pa : pagePure p (pageAnns p s.anns) := pagePure_pageAnns p s.anns
      refine ⟨?_, rfl, ?_, ?_⟩
      · show r.past ++ [pageAnns p r.anns] = s.past
        rw [ihres.1, hu_past, ihres.2.2.1, hu_page, hpast, List.append_assoc]
      · show pageAnns p (otherAnns p r.anns ++ pageAnns p s.anns) = pageAnns p s.anns
        exact pageAnns_restore _ hpure_pa
      · show otherAnns p (otherAnns p r.anns ++ pageAnns p s.anns) = otherAnns p s.anns
        rw [otherAnns_restore _ hpure_pa, ihres.2.2.2, hu_other]

/-- Claim C1 (confirmed). Undo/redo inverse law: for every page `p` and every
sequence of `n` structural mutations applied to that page (each of which
records history, i.e. excluding the explicit no-ops `deleteAnnotations([])`
and `addAnnotation(_, false)`), calling `performUndo` `n` times restores the
page's annotation list — `annotations.filter(a => a.pageIndex === p)` — to
exactly its initial value (list equality, so deep equality including order),
and calling `performRedo` `n` times afterwards restores exactly the final
value. -/
theorem undo_redo_inverse_law (p : ℕ) (s : HState) (ms : List Mutation)
    (hrec : ∀ m ∈ ms, recordsHistory m = true) :
    pageAnns p (((performUndo p)^[ms.length]) (applyMutations p ms s)).anns
      = pageAnns p s.anns ∧
    pageAnns p (((performRedo p)^[ms.length])
        (((performUndo p)^[ms.length]) (applyMutations p ms s))).anns
      = pageAnns p (applyMutations p ms s).anns := by
  by_cases hms : ms = []
  · subst hms; simp [applyMutations]
  · obtain ⟨L, hL1, hL2, hL3, hL4⟩ := applyMutations_spec p ms s hrec hms
    have hlen : L.length = ms.length := hL2
    constructor
    · have h := undo_iter p ms.length (applyMutations p ms s) s.past L hL1 hlen hL3
      rw [h.2]
      have : L.headD (pageAnns p (applyMutations p ms s).anns) = pageAnns p s.anns := by
        cases L with
        | nil => simp at hL4
        | cons hd tl => simp at hL4; simp [hL4]
      rw [this]
    · exact (redo_undo_iter p ms.length (applyMutations p ms s) s.past L hL1 hlen hL3).2.2.1

def annA : Annot :=
  { id := "1", mode := .content, pageIndex := 0, type := .dot,
    x := some 0.5, y := some 0.5, number := some 1, isElaboration := some false }

def annB : Annot :=
  { id := "2", mode := .language, pageIndex := 0, type := .rect,
    rects := some [{ x := 0.1, y := 0.1, width := 0.2, height := 0.1 }], text := some "" }

def hsEx : HState :=
  { anns := [annA], past := [], future := [], isTyping := false, lastTime := 0 }

/-- Witness for C1: two mutations (add one annotation, delete the other) on a
concrete one-annotation page; both record history, two undos restore the
initial page list and two redos restore the final one. -/
theorem undo_redo_inverse_law_witness :
    (∀ m ∈ [Mutation.add annB true, Mutation.del "1"], recordsHistory m = true) ∧
    (pageAnns 0 (((performUndo 0)^[2])
        (applyMutations 0 [Mutation.add annB true, Mutation.del "1"] hsEx)).anns
      = pageAnns 0 hsEx.anns ∧
    pageAnns 0 (((performRedo 0)^[2]) (((performUndo 0)^[2])
        (applyMutations 0 [Mutation.add annB true, Mutation.del "1"] hsEx))).anns
      = pageAnns 0 (applyMutations 0 [Mutation.add annB true, Mutation.del "1"] hsEx).anns) := by
  refine ⟨?_, undo_redo_inverse_law 0 hsEx [Mutation.add annB true, Mutation.del "1"] ?_⟩
  · intro m hm
    rcases List.mem_cons.mp hm with h | h
    · subst h; rfl
    · rcases List.mem_cons.mp h with h | h
      · subst h; rfl
      · simp at h
  · intro m hm
    rcases List.mem_cons.mp hm with h | h
    · subst h; rfl
    · rcases List.mem_cons.mp h with h | h
      · subst h; rfl
      · simp at h

/-! ## Claim C8: history underflow is a no-op -/

/-- Claim C8 (confirmed). History underflow is a no-op, not an error:
`performUndo` with empty (or, in the source, absent — the two are
observationally identical) `past`, and `performRedo` with empty `future`,
leave the whole state — annotations and history record — unchanged.  Both
operations are total functions of the state, so no error is raised. -/
theorem history_underflow_noop (p : ℕ) (s : HState) :
    (s.past = [] → performUndo p s = s) ∧
    (s.future = [] → performRedo p s = s) := by
  constructor
  · intro h
    have : s.past.getLast? = none := by rw [h]; rfl
    rw [performUndo, this]
  · intro h
    rw [performRedo, h]

/-- Witness for C8 at a concrete state with empty history. -/
theorem history_underflow_noop_witness :
    (hsEx.past = [] ∧ performUndo 0 hsEx = hsEx) ∧
    (hsEx.future = [] ∧ performRedo 0 hsEx = hsEx) :=
  ⟨⟨rfl, (history_underflow_noop 0 hsEx).1 rfl⟩,
   ⟨rfl, (history_underflow_noop 0 hsEx).2 rfl⟩⟩

/-! ## Claim C3: text-edit coalescing -/

/-- One `updateAnnotation` call: its arrival time, target id, and update. -/
structure TextCall where
  t : ℚ
  id : String
  upd : AnnUpdate
deriving DecidableEq

/-- Each call in the list arrives strictly within the 1000 ms idle window of
the previous one (`t0` is the time of the call before the list). -/
def chainedWithin : ℚ → List TextCall → Bool
  | _, [] => true
  | t0, c :: cs => decide (c.t < t0 + 1000) && chainedWithin c.t cs

def applyCalls (p : ℕ) (cs : List TextCall) (s : HState) : HState :=
  cs.foldl (fun st c => updateAnnot p c.t c.id c.upd st) s

theorem updateAnnot_of_typing (p : ℕ) (now : ℚ) (id : String) (u : AnnUpdate)
    {s : HState} (hT : s.isTyping = true) (hlt : now < s.lastTime + 1000) :
    updateAnnot p now id u s =
      { s with
        isTyping := true,
        lastTime := now,
        anns := s.anns.map (fun a => if a.id = id then applyAnnUpdate a u else a) } := by
  have h : (s.isTyping && decide (now < s.lastTime + 1000)) = true := by
    rw [hT]; simpa using hlt
  simp only [updateAnnot, h, if_true]

theorem updateAnnot_of_fresh (p : ℕ) (now : ℚ) (id : String) (u : AnnUpdate)
    {s : HState} (h : (s.isTyping && decide (now < s.lastTime + 1000)) = false) :
    updateAnnot p now id u s =
      { s with
        isTyping := true,
        lastTime := now,
        past := s.past ++ [pageAnns p s.anns],
        future := [],
        anns := s.anns.map (fun a => if a.id = id then applyAnnUpdate a u else a) } := by
  simp only [updateAnnot, h, if_false, Bool.false_eq_true, recordHistory]

/-- While the typing flag is set and calls stay inside the idle window of
their predecessor, no further history snapshot is pushed. -/
theorem applyCalls_typing (p : ℕ) :
    ∀ (cs : List TextCall) (s : HState),
      s.isTyping = true → chainedWithin s.lastTime cs = true →
      (applyCalls p cs s).past = s.past ∧
      (applyCalls p cs s).future = s.future ∧
      (applyCalls p cs s).isTyping = true := by
  intro cs
  induction cs with
  | nil => intro s hT _; exact ⟨rfl, rfl, hT⟩
  | cons c cs ih =>
      intro s hT hchain
      have hc : c.t < s.lastTime + 1000 ∧ chainedWithin c.t cs = true := by
        have := hchain
        simp [chainedWithin] at this
        exact this
      have hstep := updateAnnot_of_typing p c.t c.id c.upd hT hc.1
      have happ : applyCalls p (c :: cs) s
          = applyCalls p cs (updateAnnot p c.t c.id c.upd s) := rfl
      rw [happ, hstep]
      exact ih _ rfl (by simpa using hc.2)

/-- Claim C3 (confirmed). Text-edit coalescing: a burst of `updateAnnotation`
calls, each arriving within the 1-second idle window of the previous one and
beginning while the typing flag is effectively clear, pushes exactly one
history snapshot, taken before the first call of the burst; a further call
arriving after the idle window of the last call has elapsed starts a new
burst and pushes exactly one new snapshot (of the page as the previous burst
left it). -/
theorem text_edit_coalescing (p : ℕ) (c : TextCall) (cs : List TextCall)
    (s : HState) (c' : TextCall)
    (hfresh : s.isTyping = false ∨ s.lastTime + 1000 ≤ c.t)
    (hchain : chainedWithin c.t cs = true)
    (hafter : (applyCalls p (c :: cs) s).lastTime + 1000 ≤ c'.t) :
    (applyCalls p (c :: cs) s).past = s.past ++ [pageAnns p s.anns] ∧
    (updateAnnot p c'.t c'.id c'.upd (applyCalls p (c :: cs) s)).past
      = s.past ++ [pageAnns p s.anns, pageAnns p (applyCalls p (c :: cs) s).anns] := by
  have hflag : (s.isTyping && decide (c.t < s.lastTime + 1000)) = false := by
    rcases hfresh with h | h
    · rw [h]; rfl
    · have : ¬ (c.t < s.lastTime + 1000) := not_lt.mpr h
      simp [this]
  have hstep := updateAnnot_of_fresh p c.t c.id c.upd hflag
  have happ : applyCalls p (c :: cs) s
      = applyCalls p cs (updateAnnot p c.t c.id c.upd s) := rfl
  have hrest := applyCalls_typing p cs (updateAnnot p c.t c.id c.upd s)
    (by rw [hstep]) (by rw [hstep]; simpa using hchain)
  have hpast1 : (applyCalls p (c :: cs) s).past = s.past ++ [pageAnns p s.anns] := by
    rw [happ, hrest.1, hstep]
  refine ⟨hpast1, ?_⟩
  have hT2 : (applyCalls p (c :: cs) s).isTyping = true := by rw [happ]; exact hrest.2.2
  have hflag2 : ((applyCalls p (c :: cs) s).isTyping &&
      decide (c'.t < (applyCalls p (c :: cs) s).lastTime + 1000)) = false := by
    have : ¬ (c'.t < (applyCalls p (c :: cs) s).lastTime + 1000) := not_lt.mpr hafter
    simp [this]
  have hstep2 := updateAnnot_of_fresh p c'.t c'.id c'.upd hflag2
  rw [hstep2]
  show (applyCalls p (c :: cs) s).past ++ [pageAnns p (applyCalls p (c :: cs) s).anns]
      = s.past ++ [pageAnns p s.anns, pageAnns p (applyCalls p (c :: cs) s).anns]
  rw [hpast1, List.append_assoc]
  rfl

def updEx : AnnUpdate := { text := some "typo fix" }

/-- Witness for C3: a two-call burst at times 5 and 600 starting from an idle
state, followed by a call at time 5000, on a concrete one-annotation page. -/
theorem text_edit_coalescing_witness :
    (hsEx.isTyping = false ∨ hsEx.lastTime + 1000 ≤ (5 : ℚ)) ∧
    chainedWithin 5 [{ t := 600, id := "1", upd := updEx }] = true ∧
    (applyCalls 0 [{ t := 5, id := "1", upd := updEx },
        { t := 600, id := "1", upd := updEx }] hsEx).lastTime + 1000 ≤ (5000 : ℚ) ∧
    ((applyCalls 0 [{ t := 5, id := "1", upd := updEx },
        { t := 600, id := "1", upd := updEx }] hsEx).past
        = hsEx.past ++ [pageAnns 0 hsEx.anns] ∧
      (updateAnnot 0 5000 "1" updEx (applyCalls 0 [{ t := 5, id := "1", upd := updEx },
          { t := 600, id := "1", upd := updEx }] hsEx)).past
        = hsEx.past ++ [pageAnns 0 hsEx.anns,
            pageAnns 0 (applyCalls 0 [{ t := 5, id := "1", upd := updEx },
              { t := 600, id := "1", upd := updEx }] hsEx).anns]) := by
  have hchain : chainedWithin 5 [{ t := 600, id := "1", upd := updEx }] = true := by
    simp only [chainedWithin, Bool.and_true, decide_eq_true_eq]
    norm_num
  have hlast : (applyCalls 0 [{ t := 5, id := "1", upd := updEx },
      { t := 600, id := "1", upd := updEx }] hsEx).lastTime = 600 := rfl
  have hafter : (applyCalls 0 [{ t := 5, id := "1", upd := updEx },
      { t := 600, id := "1", upd := updEx }] hsEx).lastTime + 1000 ≤ (5000 : ℚ) := by
    rw [hlast]; norm_num
  exact ⟨Or.inl rfl, hchain, hafter,
    text_edit_coalescing 0 { t := 5, id := "1", upd := updEx }
      [{ t := 600, id := "1", upd := updEx }] hsEx { t := 5000, id := "1", upd := updEx }
      (Or.inl rfl) hchain hafter⟩

/-! ## Pointer-move mutations (src/hooks/useAnnotationCanvas.ts)

The `handleMouseMove` branches for the `moving`, `moving-multi` and
`resizing` interaction modes.  `mapWithIdx` models the index-aware
`prev.map((s, sIdx) => ...)` pattern, and the in-place array write
`newRects[rectIndex] = ...` after `[...a.rects]` is modelled as an
index-conditional map. -/

def mapIdxGo (f : ℕ → α → β) : ℕ → List α → List β
  | _, [] => []
  | i, a :: as => f i a :: mapIdxGo f (i + 1) as

def mapWithIdx (f : ℕ → α → β) (l : List α) : List β := mapIdxGo f 0 l

theorem mapIdxGo_get? (f : ℕ → α → β) :
    ∀ (l : List α) (i j : ℕ), (mapIdxGo f i l).get? j = (l.get? j).map (f (i + j)) := by
  intro l
  induction l with
  | nil => intro i j; simp [mapIdxGo]
  | cons a as ih =>
      intro i j
      cases j with
      | zero => simp [mapIdxGo]
      | succ j =>
          simp only [mapIdxGo, List.get?]
          rw [ih (i + 1) j]
          have harith : i + 1 + j = i + (j + 1) := by omega
          rw [harith]

theorem mapWithIdx_get? (f : ℕ → α → α) (l : List α) (j : ℕ) :
    (mapWithIdx f l).get? j = (l.get? j).map (f j) := by
  rw [mapWithIdx, mapIdxGo_get?]
  simp

/-- The per-gesture initial geometry captured into
`initialMultiPositions: Record<string, Point | Rect[]>` at pointer-down
(useAnnotationCanvas.ts lines 128-135). -/
inductive InitGeom where
  | pt (p : Point)
  | rects (rs : List Rect)
deriving DecidableEq

/-- Source: `ResizeHandle` in src/hooks/useAnnotationCanvas.ts, line 6. -/
inductive ResizeHandle where
  | nw
  | sw
  | ne
  | se
deriving DecidableEq

/-- The rectangle list produced by a `moving-multi` pointer-move for a rect
annotation whose snapshot is `rs` (useAnnotationCanvas.ts lines 249-254):
each snapshot rectangle keeps its size and has its origin clamped to
`[0, 1 - width] × [0, 1 - height]`. -/
def multiMovedRects (rs : List Rect) (deltaX deltaY : ℚ) : List Rect :=
  rs.map (fun r =>
    { r with
      x := clampQ (r.x + deltaX) 0 (1 - r.width),
      y := clampQ (r.y + deltaY) 0 (1 - r.height) })

/-- The per-annotation transform of the `moving-multi` branch
(useAnnotationCanvas.ts lines 242-258): annotations whose id is not a key of
the snapshot map are returned unchanged; dots and stamps are moved from their
snapshot point with clamping to `[0,1]`; rect annotations get
`multiMovedRects` of their snapshot rectangles.  The snapshot capture always
stores a point for a dot/stamp and a rect list for a rect annotation, so the
mismatched cases are unreachable in the source and return the annotation
unchanged here. -/
def applyMultiMove (initialMultiPositions : List (String × InitGeom))
    (deltaX deltaY : ℚ) (a : Annot) : Annot :=
  match initialMultiPositions.lookup a.id with
  | none => a
  | some init =>
      match a.type with
      | .dot | .stamp =>
          match init with
          | .pt d => { a with x := some (clampQ (d.x + deltaX) 0 1),
                              y := some (clampQ (d.y + deltaY) 0 1) }
          | .rects _ => a
      | .rect =>
          match init with
          | .rects rs => { a with rects := some (multiMovedRects rs deltaX deltaY) }
          | .pt _ => a

/-- Source: the `moving-multi` branch of `handleMouseMove`
(useAnnotationCanvas.ts lines 239-261): only the current student's annotation
list is mapped through `applyMultiMove`. -/
def movingMultiStep (students : List Student) (currentStudentIndex : ℕ)
    (initialMultiPositions : List (String × InitGeom)) (deltaX deltaY : ℚ) :
    List Student :=
  mapWithIdx (fun sIdx s =>
    if sIdx = currentStudentIndex then
      { s with annotations :=
          s.annotations.map (applyMultiMove initialMultiPositions deltaX deltaY) }
    else s) students

/-- The rectangle update of the `moving` branch for a rect annotation
(useAnnotationCanvas.ts lines 270-275): the rect at `rectIndex` keeps its own
size and receives the origin computed by clamping the gesture's initial
rectangle, shifted by the pointer delta, to `[0, 1 - initialRect.width] ×
[0, 1 - initialRect.height]`. -/
def movedRectAt (initialRect r : Rect) (deltaX deltaY : ℚ) : Rect :=
  { r with
    x := clampQ (initialRect.x + deltaX) 0 (1 - initialRect.width),
    y := clampQ (initialRect.y + deltaY) 0 (1 - initialRect.height) }

/-- Source: the `moving` branch of `handleMouseMove`
(useAnnotationCanvas.ts lines 264-281). -/
def movingStep (students : List Student) (currentStudentIndex : ℕ)
    (annotationId : String) (rectIndex : ℕ) (initialRect : Option Rect)
    (initialDot : Option Point) (deltaX deltaY : ℚ) : List Student :=
  mapWithIdx (fun sIdx s =>
    if sIdx = currentStudentIndex then
      { s with annotations := s.annotations.map (fun a =>
          if a.id = annotationId then
            match a.type with
            | .dot | .stamp =>
                match initialDot with
                | some d => { a with x := some (clampQ (d.x + deltaX) 0 1),
                                     y := some (clampQ (d.y + deltaY) 0 1) }
                | none => a
            | .rect =>
                match initialRect, a.rects with
                | some ir, some rs =>
                    { a with rects := some (mapWithIdx (fun i r =>
                        if i = rectIndex then movedRectAt ir r deltaX deltaY else r) rs) }
                | _, _ => a
          else a) }
    else s) students

/-- Source: the handle-specific transform of the `resizing` branch of
`handleMouseMove` (useAnnotationCanvas.ts lines 288-305).  Width and height
are floored at 0.01; the origin is shifted without any clamping. -/
def resizedRect (handle : ResizeHandle) (initialRect : Rect)
    (deltaX deltaY : ℚ) : Rect :=
  match handle with
  | .se => { initialRect with
      width := max 0.01 (initialRect.width + deltaX),
      height := max 0.01 (initialRect.height + deltaY) }
  | .sw => { initialRect with
      x := initialRect.x + deltaX,
      width := max 0.01 (initialRect.width - deltaX),
      height := max 0.01 (initialRect.height + deltaY) }
  | .ne => { initialRect with
      y := initialRect.y + deltaY,
      width := max 0.01 (initialRect.width + deltaX),
      height := max 0.01 (initialRect.height - deltaY) }
  | .nw => { initialRect with
      x := initialRect.x + deltaX,
      y := initialRect.y + deltaY,
      width := max 0.01 (initialRect.width - deltaX),
      height := max 0.01 (initialRect.height - deltaY) }

/-- Source: the `resizing` branch of `handleMouseMove`
(useAnnotationCanvas.ts lines 282-311): the rect at `rectIndex` of the target
annotation is replaced by `resizedRect`. -/
def resizingStep (students : List Student) (currentStudentIndex : ℕ)
    (annotationId : String) (rectIndex : ℕ) (initialRect : Rect)
    (handle : ResizeHandle) (deltaX deltaY : ℚ) : List Student :=
  mapWithIdx (fun sIdx s =>
    if sIdx = currentStudentIndex then
      { s with annotations := s.annotations.map (fun a =>
          if a.id = annotationId then
            match a.rects with
            | some rs =>
                { a with rects := some (mapWithIdx (fun i r =>
                    if i = rectIndex then resizedRect handle initialRect deltaX deltaY
                    else r) rs) }
            | none => a
          else a) }
    else s) students

/-! ## Claim C2: normalized-bounds after move/resize -/

/-- The normalized-bounds invariant for a rectangle. -/
def inBounds (r : Rect) : Prop :=
  0 ≤ r.x ∧ 0 ≤ r.y ∧ r.x + r.width ≤ 1 ∧ r.y + r.height ≤ 1

theorem clampQ_le (val : ℚ) {lo hi : ℚ} (h : lo ≤ hi) : lo ≤ clampQ val lo hi ∧ clampQ val lo hi ≤ hi :=
  ⟨le_max_left _ _, max_le h (min_le_left _ _)⟩

/-- Claim C2, amended part (proved). The move gestures re-establish the
bounds invariant: every rectangle produced by a `moving-multi` pointer-move
whose snapshot rectangles have width and height at most 1, and the rectangle
produced by the `moving` branch when its size agrees with the gesture's
initial rectangle (which a move gesture never changes) and is at most 1,
lands with `x ≥ 0`, `y ≥ 0`, `x + width ≤ 1` and `y + height ≤ 1` — for
every pointer delta.  The `resizing` branch is excluded: it applies no such
clamping (see the counterexample). -/
theorem move_gestures_preserve_bounds :
    (∀ (rs : List Rect) (deltaX deltaY : ℚ),
      (∀ r ∈ rs, r.width ≤ 1 ∧ r.height ≤ 1) →
      ∀ r' ∈ multiMovedRects rs deltaX deltaY, inBounds r') ∧
    (∀ (ir r : Rect) (deltaX deltaY : ℚ),
      r.width = ir.width → r.height = ir.height → r.width ≤ 1 → r.height ≤ 1 →
      inBounds (movedRectAt ir r deltaX deltaY)) := by
  constructor
  · intro rs deltaX deltaY hsz r' hr'
    rw [multiMovedRects, List.mem_map] at hr'
    obtain ⟨r, hr, rfl⟩ := hr'
    obtain ⟨hw, hh⟩ := hsz r hr
    have hx := clampQ_le (r.x + deltaX) (show (0 : ℚ) ≤ 1 - r.width by linarith)
    have hy := clampQ_le (r.y + deltaY) (show (0 : ℚ) ≤ 1 - r.height by linarith)
    exact ⟨hx.1, hy.1, by simpa using add_le_add_right hx.2 r.width,
      by simpa using add_le_add_right hy.2 r.height⟩
  · intro ir r deltaX deltaY hweq hheq hw hh
    have hx := clampQ_le (ir.x + deltaX) (show (0 : ℚ) ≤ 1 - ir.width by rw [← hweq]; linarith)
    have hy := clampQ_le (ir.y + deltaY) (show (0 : ℚ) ≤ 1 - ir.height by rw [← hheq]; linarith)
    refine ⟨hx.1, hy.1, ?_, ?_⟩
    · show clampQ (ir.x + deltaX) 0 (1 - ir.width) + r.width ≤ 1
      rw [hweq]; linarith [hx.2]
    · show clampQ (ir.y + deltaY) 0 (1 - ir.height) + r.height ≤ 1
      rw [hheq]; linarith [hy.2]

def rEx : Rect := { x := 0.7, y := 0.7, width := 0.2, height := 0.2 }

/-- Witness for the amended C2 at a concrete in-bounds rectangle pushed
past the right and bottom edges. -/
theorem move_gestures_preserve_bounds_witness :
    (∀ r ∈ [rEx], r.width ≤ 1 ∧ r.height ≤ 1) ∧
    (∀ r' ∈ multiMovedRects [rEx] 0.5 0.5, inBounds r') ∧
    (rEx.width = rEx.width ∧ rEx.width ≤ 1 ∧
      inBounds (movedRectAt rEx rEx 0.5 0.5)) := by
  have hsz : ∀ r ∈ [rEx], r.width ≤ 1 ∧ r.height ≤ 1 := by
    intro r hr
    simp only [List.mem_singleton] at hr
    subst hr
    constructor <;> norm_num [rEx]
  refine ⟨hsz, move_gestures_preserve_bounds.1 [rEx] 0.5 0.5 hsz, rfl, ?_, ?_⟩
  · norm_num [rEx]
  · exact move_gestures_preserve_bounds.2 rEx rEx 0.5 0.5 rfl rfl
      (by norm_num [rEx]) (by norm_num [rEx])

/-- Claim C2, counterexample. A resize gesture violates the claimed bounds:
grabbing the south-west handle of the in-bounds rectangle
`{x: 0.5, y: 0.5, width: 0.1, height: 0.1}` and dragging by `(+0.5, +0.05)`
(both pointer positions inside `[0,1]`) produces `x = 1`, `width = 0.01`,
so `x + width = 1.01 > 1`: the resizing branch applies no bounds clamping. -/
theorem resize_escapes_bounds :
    ¬ inBounds (resizedRect ResizeHandle.sw
      { x := 0.5, y := 0.5, width := 0.1, height := 0.1 } 0.5 0.05) := by
  intro h
  have hx : (resizedRect ResizeHandle.sw
      { x := 0.5, y := 0.5, width := 0.1, height := 0.1 } 0.5 0.05).x = 1 := by
    norm_num [resizedRect]
  have hw : (resizedRect ResizeHandle.sw
      { x := 0.5, y := 0.5, width := 0.1, height := 0.1 } 0.5 0.05).width = 0.01 := by
    norm_num [resizedRect]
  have := h.2.2.1
  rw [hx, hw] at this
  norm_num at this

/-! ## Claim C10: frame property of multi-move -/

/-- Claim C10 (confirmed). Frame property of multi-move: a `moving-multi`
pointer-move leaves every student other than the current one unchanged, and
leaves every annotation of the current student whose id is not a key of the
gesture's initial-geometry snapshot map unchanged (in place, so list length
and order are also preserved). -/
theorem moving_multi_frame (students : List Student) (currentStudentIndex : ℕ)
    (initialMultiPositions : List (String × InitGeom)) (deltaX deltaY : ℚ) :
    (∀ j, j ≠ currentStudentIndex →
      (movingMultiStep students currentStudentIndex initialMultiPositions
        deltaX deltaY).get? j = students.get? j) ∧
    (∀ (s : Student) (i : ℕ) (a : Annot),
      students.get? currentStudentIndex = some s →
      s.annotations.get? i = some a →
      initialMultiPositions.lookup a.id = none →
      ∃ s', (movingMultiStep students currentStudentIndex initialMultiPositions
          deltaX deltaY).get? currentStudentIndex = some s' ∧
        s'.annotations.get? i = some a ∧
        s'.annotations.length = s.annotations.length) := by
  constructor
  · intro j hj
    rw [movingMultiStep, mapWithIdx_get?]
    cases students.get? j with
    | none => rfl
    | some s => simp [hj]
  · intro s i a hs ha hlookup
    refine ⟨{ s with annotations :=
        s.annotations.map (applyMultiMove initialMultiPositions deltaX deltaY) }, ?_, ?_, by simp⟩
    · rw [movingMultiStep, mapWithIdx_get?, hs]
      simp
    · show (s.annotations.map (applyMultiMove initialMultiPositions deltaX deltaY)).get? i
          = some a
      rw [List.get?_map, ha]
      simp only [Option.map_some']
      congr 1
      rw [applyMultiMove, hlookup]

def annM : Annot :=
  { id := "m1", mode := .content, pageIndex := 0, type := .dot,
    x := some 0.3, y := some 0.3 }

def annO : Annot :=
  { id := "o1", mode := .language, pageIndex := 0, type := .dot,
    x := some 0.6, y := some 0.6 }

def stM : Student :=
  { id := "s1", name := "A", images := ["p"], annotations := [annM, annO],
    scores := ⟨0, 0, 0, 0⟩, justifications := ⟨"", "", "", ""⟩, timeSpent := 0 }

def stN : Student :=
  { id := "s2", name := "B", images := ["q"], annotations := [],
    scores := ⟨0, 0, 0, 0⟩, justifications := ⟨"", "", "", ""⟩, timeSpent := 0 }

/-- Witness for C10: a concrete two-student list, moving only the selected
annotation `m1` of student 0; student 1 and the unselected annotation `o1`
are untouched. -/
theorem moving_multi_frame_witness :
    ((1 : ℕ) ≠ 0 ∧
      (movingMultiStep [stM, stN] 0 [("m1", InitGeom.pt ⟨0.3, 0.3⟩)] 0.1 0.1).get? 1
        = [stM, stN].get? 1) ∧
    ([stM, stN].get? 0 = some stM ∧
      stM.annotations.get? 1 = some annO ∧
      List.lookup "o1" [("m1", InitGeom.pt ⟨0.3, 0.3⟩)] = none ∧
      ∃ s', (movingMultiStep [stM, stN] 0 [("m1", InitGeom.pt ⟨0.3, 0.3⟩)] 0.1 0.1).get? 0
          = some s' ∧
        s'.annotations.get? 1 = some annO ∧
        s'.annotations.length = stM.annotations.length) := by
  have h := moving_multi_frame [stM, stN] 0 [("m1", InitGeom.pt ⟨0.3, 0.3⟩)] 0.1 0.1
  refine ⟨⟨one_ne_zero, h.1 1 one_ne_zero⟩, rfl, rfl, rfl, ?_⟩
  exact h.2 stM 1 annO rfl rfl rfl

/-! ## Claim C6: right-click dot creation (src/hooks/useAnnotationCanvas.ts)

The right-button short-click branch of `handleMouseUp`, lines 368-379. -/

/-- The `maxNum` computation: `modeDots` filters the current student's
annotations by active mode and dot type (across all pages of the document);
`numbers` maps `d.number || 0`; `maxNum` is `Math.max(...numbers)` for a
nonempty list (over naturals this equals a `max`-fold from 0) and 0 for an
empty one. -/
def dotMaxNumber (student : Student) (activeMode : GradingMode) : ℕ :=
  let modeDots := student.annotations.filter
    (fun a => decide (a.mode = activeMode) && decide (a.type = AnnType.dot))
  let numbers := modeDots.map (fun d => d.number.getD 0)
  if numbers.isEmpty then 0 else numbers.foldl max 0

/-- The dot annotation created by a right-button short click
(useAnnotationCanvas.ts lines 370-377).  `groupKey` models `ctrlKey ||
metaKey`; `nextNum` is `maxNum || 1` for a group click (JavaScript `||`
treats 0 as falsy) and `maxNum + 1` otherwise; `isElaboration` is set by the
group modifier or by `shiftKey`. -/
def rightClickDot (student : Student) (activeMode : GradingMode)
    (currentImageIndex : ℕ) (pt : Point) (groupKey shiftKey : Bool)
    (newId : String) : Annot :=
  let maxNum := dotMaxNumber student activeMode
  let nextNum := if groupKey then (if maxNum = 0 then 1 else maxNum) else maxNum + 1
  { id := newId, mode := activeMode, pageIndex := currentImageIndex,
    type := .dot, x := some pt.x, y := some pt.y,
    number := some nextNum, isElaboration := some (groupKey || shiftKey) }

theorem le_foldl_max_init : ∀ (l : List ℕ) (a : ℕ), a ≤ l.foldl max a := by
  intro l
  induction l with
  | nil => intro a; exact le_refl a
  | cons b bs ih =>
      intro a
      calc a ≤ max a b := le_max_left _ _
        _ ≤ bs.foldl max (max a b) := ih (max a b)

theorem mem_le_foldl_max {x : ℕ} : ∀ (l : List ℕ) (a : ℕ), x ∈ l → x ≤ l.foldl max a := by
  intro l
  induction l with
  | nil => intro a h; simp at h
  | cons b bs ih =>
      intro a h
      rcases List.mem_cons.mp h with h | h
      · subst h
        calc x ≤ max a x := le_max_right _ _
          _ ≤ bs.foldl max (max a x) := le_foldl_max_init bs (max a x)
      · exact ih (max a b) h

theorem foldl_max_mem : ∀ (l : List ℕ) (a : ℕ), l.foldl max a = a ∨ l.foldl max a ∈ l := by
  intro l
  induction l with
  | nil => intro a; exact Or.inl rfl
  | cons b bs ih =>
      intro a
      have hgoal : (b :: bs).foldl max a = bs.foldl max (max a b) := rfl
      rcases ih (max a b) with h | h
      · rcases max_choice a b with hm | hm
        · exact Or.inl (by rw [hgoal, h, hm])
        · refine Or.inr ?_
          rw [hgoal, h, hm]
          exact List.mem_cons_self _ _
      · refine Or.inr (List.mem_cons_of_mem _ ?_)
        rw [hgoal]
        exact h

/-- The maximum is an upper bound of the relevant dot numbers. -/
theorem dotMaxNumber_is_ub (student : Student) (m : GradingMode) :
    ∀ a ∈ student.annotations, a.mode = m → a.type = AnnType.dot →
      a.number.getD 0 ≤ dotMaxNumber student m := by
  intro a ha hmode htype
  have hmem : a ∈ student.annotations.filter
      (fun a => decide (a.mode = m) && decide (a.type = AnnType.dot)) := by
    rw [List.mem_filter]
    exact ⟨ha, by simp [hmode, htype]⟩
  have hmemnum : a.number.getD 0 ∈ (student.annotations.filter
      (fun a => decide (a.mode = m) && decide (a.type = AnnType.dot))).map
        (fun d => d.number.getD 0) :=
    List.mem_map_of_mem _ hmem
  have hnil : ((student.annotations.filter
      (fun a => decide (a.mode = m) && decide (a.type = AnnType.dot))).map
        (fun d => d.number.getD 0)) ≠ [] := List.ne_nil_of_mem hmemnum
  have hne : ((student.annotations.filter
      (fun a => decide (a.mode = m) && decide (a.type = AnnType.dot))).map
        (fun d => d.number.getD 0)).isEmpty = false := by
    cases h : ((student.annotations.filter
        (fun a => decide (a.mode = m) && decide (a.type = AnnType.dot))).map
          (fun d => d.number.getD 0)).isEmpty with
    | false => rfl
    | true => exact absurd (List.isEmpty_eq_true.mp h) hnil
  rw [dotMaxNumber]
  simp only [hne, if_false, Bool.false_eq_true]
  exact mem_le_foldl_max _ 0 hmemnum

/-- The maximum is attained by some relevant dot, or is zero. -/
theorem dotMaxNumber_attained (student : Student) (m : GradingMode) :
    dotMaxNumber student m = 0 ∨
    ∃ a ∈ student.annotations, a.mode = m ∧ a.type = AnnType.dot ∧
      a.number.getD 0 = dotMaxNumber student m := by
  rw [dotMaxNumber]
  cases he : ((student.annotations.filter
      (fun a => decide (a.mode = m) && decide (a.type = AnnType.dot))).map
        (fun d => d.number.getD 0)).isEmpty with
  | true => exact Or.inl (by simp [he])
  | false =>
      simp only [he, if_false, Bool.false_eq_true]
      rcases foldl_max_mem ((student.annotations.filter
          (fun a => decide (a.mode = m) && decide (a.type = AnnType.dot))).map
            (fun d => d.number.getD 0)) 0 with h | h
      · exact Or.inl h
      · rcases List.mem_map.mp h with ⟨d, hd, hval⟩
        have hd' := List.mem_filter.mp hd
        refine Or.inr ⟨d, hd'.1, ?_, ?_, hval⟩
        · have := hd'.2
          simp at this
          exact this.1
        · have := hd'.2
          simp at this
          exact this.2

/-- Claim C6, amended (proved). A right-button short click while idle creates
a dot at the click point with `isElaboration` set exactly by the group/shift
modifiers, and with number: `max + 1` for a plain click (so 1 when no
relevant dot exists), and, for a group-modifier click, `max` when `max ≥ 1`
but `1` when `max = 0` (in particular when no dot of the active category
exists yet — JavaScript's `maxNum || 1`), where `max` is the maximum existing
number among dots of the active category on the current document
(characterised below as an upper bound that is attained or zero). -/
theorem dot_numbering_amended (student : Student) (m : GradingMode) (p : ℕ)
    (pt : Point) (g sh : Bool) (newId : String) :
    (∀ a ∈ student.annotations, a.mode = m → a.type = AnnType.dot →
      a.number.getD 0 ≤ dotMaxNumber student m) ∧
    (dotMaxNumber student m = 0 ∨
      ∃ a ∈ student.annotations, a.mode = m ∧ a.type = AnnType.dot ∧
        a.number.getD 0 = dotMaxNumber student m) ∧
    (rightClickDot student m p pt g sh newId).number =
      some (if g then (if dotMaxNumber student m = 0 then 1 else dotMaxNumber student m)
            else dotMaxNumber student m + 1) ∧
    (rightClickDot student m p pt g sh newId).isElaboration = some (g || sh) ∧
    (rightClickDot student m p pt g sh newId).type = AnnType.dot ∧
    (rightClickDot student m p pt g sh newId).x = some pt.x ∧
    (rightClickDot student m p pt g sh newId).y = some pt.y ∧
    (rightClickDot student m p pt g sh newId).pageIndex = p ∧
    (rightClickDot student m p pt g sh newId).mode = m :=
  ⟨dotMaxNumber_is_ub student m, dotMaxNumber_attained student m,
    rfl, rfl, rfl, rfl, rfl, rfl, rfl⟩

def stDots : Student :=
  { id := "sd", name := "D", images := ["p"],
    annotations := [{ id := "10", mode := .content, pageIndex := 0, type := .dot,
                      number := some 1 },
                    { id := "11", mode := .content, pageIndex := 1, type := .dot,
                      number := some 3 }],
    scores := ⟨0, 0, 0, 0⟩, justifications := ⟨"", "", "", ""⟩, timeSpent := 0 }

/-- Witness for the amended C6: on a document with content dots numbered 1
and 3 (on different pages), a plain click creates number 4. -/
theorem dot_numbering_amended_witness :
    (rightClickDot stDots GradingMode.content 0 ⟨0.5, 0.5⟩ false false "12").number
      = some 4 := by
  have h := (dot_numbering_amended stDots GradingMode.content 0 ⟨0.5, 0.5⟩
    false false "12").2.2.1
  rw [h]
  rfl

def stEmpty : Student :=
  { id := "se", name := "", images := [], annotations := [],
    scores := ⟨0, 0, 0, 0⟩, justifications := ⟨"", "", "", ""⟩, timeSpent := 0 }

/-- Claim C6, counterexample. With no dot of the active category on the
document, the maximum is 0, yet a group-modifier click creates a dot numbered
1, not `max` (= 0) as the claim states for this case: `maxNum || 1` treats 0
as falsy. -/
theorem dot_numbering_group_counterexample :
    dotMaxNumber stEmpty GradingMode.content = 0 ∧
    (rightClickDot stEmpty GradingMode.content 0 ⟨0.5, 0.5⟩ true false "d1").number
      ≠ some (dotMaxNumber stEmpty GradingMode.content) ∧
    (rightClickDot stEmpty GradingMode.content 0 ⟨0.5, 0.5⟩ true false "d1").number
      = some 1 := by
  refine ⟨rfl, ?_, rfl⟩
  intro h
  have : (1 : ℕ) = 0 := by
    have h1 : (rightClickDot stEmpty GradingMode.content 0 ⟨0.5, 0.5⟩ true false "d1").number
        = some 1 := rfl
    have h2 : dotMaxNumber stEmpty GradingMode.content = 0 := rfl
    rw [h1, h2] at h
    exact Option.some.inj h
  exact one_ne_zero this

/-! ## Claim C7: stamp snapshots are immutable under updateScore -/

/-- The score categories, i.e. `keyof Student['scores']`. -/
inductive ScoreCat where
  | content
  | communicative
  | organisation
  | language
deriving DecidableEq

/-- The computed-key update `{ ...s.scores, [category]: val }`. -/
def setScore (sc : StudentScore) (category : ScoreCat) (val : ℚ) : StudentScore :=
  match category with
  | .content => { sc with content := val }
  | .communicative => { sc with communicative := val }
  | .organisation => { sc with organisation := val }
  | .language => { sc with language := val }

/-- Source: `updateScore` in src/unnamed/part_003, lines 230-232: only the
current student's `scores` record is replaced. -/
def updateScore (students : List Student) (currentStudentIndex : ℕ)
    (category : ScoreCat) (val : ℚ) : List Student :=
  mapWithIdx (fun idx s =>
    if idx = currentStudentIndex then { s with scores := setScore s.scores category val }
    else s) students

theorem map_mapIdxGo_eq {g : α → β} {f : ℕ → α → α}
    (hf : ∀ i s, g (f i s) = g s) :
    ∀ (l : List α) (i : ℕ), (mapIdxGo f i l).map g = l.map g := by
  intro l
  induction l with
  | nil => intro i; rfl
  | cons a as ih =>
      intro i
      show g (f i a) :: (mapIdxGo f (i + 1) as).map g = g a :: as.map g
      rw [hf i a, ih (i + 1)]

/-- Claim C7 (confirmed). Stamp snapshots are immutable after creation: an
`updateScore` call (any category, any value, any current student index)
leaves every student's annotation list — and therefore the `stampData`
snapshot `{scores, total, grader, date}` of every existing stamp annotation —
completely unchanged. -/
theorem stamp_snapshots_immutable (students : List Student)
    (currentStudentIndex : ℕ) (category : ScoreCat) (val : ℚ) :
    (updateScore students currentStudentIndex category val).map
        (fun s => s.annotations)
      = students.map (fun s => s.annotations) := by
  rw [updateScore, mapWithIdx]
  apply map_mapIdxGo_eq
  intro i s
  by_cases h : i = currentStudentIndex <;> simp [h]

/-! ## Claim C9: split/merge round-trip (src/unnamed/part_003)

`splitStudentAtPage` (lines 284-300) and `mergeWithPrevious` (lines 267-282)
operate on the students list together with the current student and image
indices. -/

structure GSession where
  students : List Student
  currentStudentIndex : ℕ
  currentImageIndex : ℕ
deriving DecidableEq

/-- Source: `splitStudentAtPage`, src/unnamed/part_003 lines 284-300.  The
fresh id `(Date.now() + Math.random()).toString()` is nondeterministic in the
source and is passed in as `newId` here.  The source indexes
`updated[currentStudentIndex]` unconditionally; the embedding returns the
session unchanged when the index is out of range (the app only calls it with
a valid index). -/
def splitStudentAtPage (newId : String) (g : GSession) : GSession :=
  if g.currentImageIndex = 0 then g
  else
    match g.students.get? g.currentStudentIndex with
    | none => g
    | some current =>
        let keptImages := current.images.take g.currentImageIndex
        let movedImages := current.images.drop g.currentImageIndex
        let keptAnnotations := current.annotations.filter
          (fun a => decide (a.pageIndex < g.currentImageIndex))
        let movedAnnotations := (current.annotations.filter
          (fun a => decide (g.currentImageIndex ≤ a.pageIndex))).map
            (fun a => { a with pageIndex := a.pageIndex - g.currentImageIndex })
        let newStudent : Student :=
          { current with
            id := newId,
            name := current.name ++ " (Part 2)",
            images := movedImages,
            annotations := movedAnnotations,
            scores := ⟨0, 0, 0, 0⟩,
            justifications := ⟨"", "", "", ""⟩,
            timeSpent := 0 }
        let updated := g.students.set g.currentStudentIndex
          { current with images := keptImages, annotations := keptAnnotations }
        { students := updated.take (g.currentStudentIndex + 1) ++ [newStudent]
            ++ updated.drop (g.currentStudentIndex + 1),
          currentStudentIndex := g.currentStudentIndex + 1,
          currentImageIndex := 0 }

/-- Source: `mergeWithPrevious`, src/unnamed/part_003 lines 267-282.  Note
that the merged annotation list in the source is
`[...current.annotations, ...adjustedAnnotations]` — the previous student's
annotations are not included, and the current student's annotations appear
twice, once unshifted and once shifted by the previous image count (compare
`mergeNextStudent`, lines 253-265, which uses the earlier student's list
first).  `setCurrentImageIndex(prevLength)` reads the previous student's
image count from the pre-merge state. -/
def mergeWithPrevious (g : GSession) : GSession :=
  if g.currentStudentIndex = 0 then g
  else
    match g.students.get? (g.currentStudentIndex - 1),
        g.students.get? g.currentStudentIndex with
    | some previous, some current =>
        let prevImageCount := previous.images.length
        let adjustedAnnotations := current.annotations.map
          (fun a => { a with pageIndex := a.pageIndex + prevImageCount })
        let merged :=
          { previous with
            images := previous.images ++ current.images,
            annotations := current.annotations ++ adjustedAnnotations }
        let updated := g.students.set (g.currentStudentIndex - 1) merged
        { students := updated.take g.currentStudentIndex
            ++ updated.drop (g.currentStudentIndex + 1),
          currentStudentIndex := g.currentStudentIndex - 1,
          currentImageIndex := prevImageCount }
    | _, _ => g

def annP0 : Annot :=
  { id := "a", mode := .content, pageIndex := 0, type := .dot,
    x := some 0.1, y := some 0.1, number := some 1 }

def annP1 : Annot :=
  { id := "b", mode := .language, pageIndex := 1, type := .dot,
    x := some 0.2, y := some 0.2, number := some 2 }

def stSplit : Student :=
  { id := "s1", name := "Alice", images := ["i0", "i1"],
    annotations := [annP0, annP1], scores := ⟨1, 2, 3, 4⟩,
    justifications := ⟨"ja", "jb", "jc", "jd"⟩, timeSpent := 7 }

def gEx : GSession := { students := [stSplit], currentStudentIndex := 0,
                        currentImageIndex := 1 }

/-- Claim C9 evaluated at the failing input (code bug). Splitting the
two-page student `stSplit` (annotation `a` on page 0, `b` on page 1) at page
1 and merging back yields a single student whose images are restored but
whose annotation list is `[b@0, b@1]` — the page-0 annotation `a` is lost
and `b` is duplicated, one copy with the wrong page index — instead of the
original `{a@0, b@1}`. -/
theorem split_merge_drops_annotations_bug :
    (mergeWithPrevious (splitStudentAtPage "s2" gEx)).students.map
        (fun s => s.annotations.map (fun a => (a.id, a.pageIndex)))
      = [[("b", 0), ("b", 1)]] ∧
    gEx.students.map (fun s => s.annotations.map (fun a => (a.id, a.pageIndex)))
      = [[("a", 0), ("b", 1)]] ∧
    ([[("b", 0), ("b", 1)]] : List (List (String × ℕ))) ≠ [[("a", 0), ("b", 1)]] ∧
    (mergeWithPrevious (splitStudentAtPage "s2" gEx)).students.map (fun s => s.images)
      = [["i0", "i1"]] ∧
    (mergeWithPrevious (splitStudentAtPage "s2" gEx)).students.map (fun s => s.name)
      = ["Alice"] := by
  refine ⟨rfl, rfl, by decide, rfl, rfl⟩

/-! ## The Sauvola binarization engine (src/services/imageProcessing.ts)

`processImageWithSauvola` decodes the image, computes per-pixel luminance,
builds two summed-area tables, and thresholds each pixel with Sauvola's
formula.  The embedding models the decoded pixel grid: `data x y` is the
RGBA quadruple stored at `data[(y*width+x)*4 .. +3]`, as a total function
(the source only reads in-range indices).  The JPEG decode/re-encode around
the pixel loop is an image-codec concern outside the algorithm (spec §1
non-goals) and is not modelled.  `Math.sqrt` is the parameter `sqrtQ`. -/

structure RGBA where
  r : ℕ
  g : ℕ
  b : ℕ
  a : ℕ
deriving DecidableEq

structure Img where
  width : ℕ
  height : ℕ
  data : ℕ → ℕ → RGBA

/-- The grayscale conversion
`data[index]*0.2126 + data[index+1]*0.7152 + data[index+2]*0.0722`
(imageProcessing.ts lines 35 and 91). -/
def luma (c : RGBA) : ℚ := (c.r : ℚ) * 0.2126 + (c.g : ℚ) * 0.7152 + (c.b : ℚ) * 0.0722

def lumaAt (img : Img) (x y : ℕ) : ℚ := luma (img.data x y)

/-- The running row sum `rowSum` of luminance values along row `y` up to
column `x` (imageProcessing.ts lines 29-37). -/
def rowSum (img : Img) (y : ℕ) : ℕ → ℚ
  | 0 => lumaAt img 0 y
  | x + 1 => rowSum img y x + lumaAt img (x + 1) y

/-- The running row sum of squared luminance values. -/
def rowSumSq (img : Img) (y : ℕ) : ℕ → ℚ
  | 0 => lumaAt img 0 y * lumaAt img 0 y
  | x + 1 => rowSumSq img y x + lumaAt img (x + 1) y * lumaAt img (x + 1) y

/-- The summed-area table `integral[y*width+x]`, built row by row:
`integral[curr] = integral[prev row] + rowSum` (imageProcessing.ts
lines 40-48). -/
def integral (img : Img) : ℕ → ℕ → ℚ
  | 0, x => rowSum img 0 x
  | y + 1, x => integral img y x + rowSum img (y + 1) x

/-- The summed-area table of squared values, `integralSq`. -/
def integralSq (img : Img) : ℕ → ℕ → ℚ
  | 0, x => rowSumSq img 0 x
  | y + 1, x => integralSq img y x + rowSumSq img (y + 1) x

/-- The four-corner inclusion–exclusion lookup
`valD - valB - valC + valA` with out-of-range lookups treated as zero
(imageProcessing.ts lines 70-75). -/
def localSum (img : Img) (x1 y1 x2 y2 : ℕ) : ℚ :=
  integral img y2 x2
    - (if 0 < y1 then integral img (y1 - 1) x2 else 0)
    - (if 0 < x1 then integral img y2 (x1 - 1) else 0)
    + (if 0 < x1 ∧ 0 < y1 then integral img (y1 - 1) (x1 - 1) else 0)

/-- The same lookup on the squared table (imageProcessing.ts lines 77-81). -/
def localSumSq (img : Img) (x1 y1 x2 y2 : ℕ) : ℚ :=
  integralSq img y2 x2
    - (if 0 < y1 then integralSq img (y1 - 1) x2 else 0)
    - (if 0 < x1 then integralSq img y2 (x1 - 1) else 0)
    + (if 0 < x1 ∧ 0 < y1 then integralSq img (y1 - 1) (x1 - 1) else 0)

/-- Sauvola's adaptive threshold at pixel `(x, y)` (imageProcessing.ts
lines 61-88): window size `w = 41` so `whalf = 20`, window clipped to the
image (`x1 = max(0, x-20)` is natural subtraction, `x2 = min(width-1,
x+20)`), `count` the clipped window area, `mean` and `variance` from the two
tables with `variance` floored at 0, `std = sqrt(variance)`, and
`T = mean * (1 + k*(std/R - 1))` with `k = 0.2`, `R = 128`. -/
def sauvolaThreshold (img : Img) (sqrtQ : ℚ → ℚ) (x y : ℕ) : ℚ :=
  let x1 := x - 20
  let y1 := y - 20
  let x2 := min (img.width - 1) (x + 20)
  let y2 := min (img.height - 1) (y + 20)
  let count : ℚ := (((x2 - x1 + 1) * (y2 - y1 + 1) : ℕ) : ℚ)
  let mean := localSum img x1 y1 x2 y2 / count
  let variance := max 0 (localSumSq img x1 y1 x2 y2 / count - mean * mean)
  let std := sqrtQ variance
  mean * (1 + 0.2 * (std / 128 - 1))

/-- The binarized value of pixel `(x, y)`:
`pixelLuma > threshold ? 255 : 0` (imageProcessing.ts line 92). -/
def sauvolaAt (img : Img) (sqrtQ : ℚ → ℚ) (x y : ℕ) : ℕ :=
  if lumaAt img x y > sauvolaThreshold img sqrtQ x y then 255 else 0

/-- Source: `processImageWithSauvola` (imageProcessing.ts lines 58-102): an
output image of the same dimensions whose every pixel has the binarized
value in all three colour channels and alpha 255. -/
def processImageWithSauvola (sqrtQ : ℚ → ℚ) (img : Img) : Img :=
  { width := img.width,
    height := img.height,
    data := fun x y =>
      let binVal := sauvolaAt img sqrtQ x y
      { r := binVal, g := binVal, b := binVal, a := 255 } }

/-! ## Claim C5: two-level output of the same dimensions -/

/-- Claim C5 (confirmed). `processImageWithSauvola` produces an output with
the same dimensions as the input, and every output pixel has all three
colour channels equal — either all 255 (white) or all 0 (black) — with alpha
forced to 255.  Determinism is definitional: the embedding is a pure
function of the input image (and of the square-root routine), so equal
inputs give equal outputs. -/
theorem sauvola_output_two_level (sqrtQ : ℚ → ℚ) (img : Img) :
    (processImageWithSauvola sqrtQ img).width = img.width ∧
    (processImageWithSauvola sqrtQ img).height = img.height ∧
    ∀ x y : ℕ,
      (processImageWithSauvola sqrtQ img).data x y
          = { r := 255, g := 255, b := 255, a := 255 } ∨
      (processImageWithSauvola sqrtQ img).data x y
          = { r := 0, g := 0, b := 0, a := 255 } := by
  refine ⟨rfl, rfl, fun x y => ?_⟩
  by_cases h : lumaAt img x y > sauvolaThreshold img sqrtQ x y
  · left
    show ({ r := sauvolaAt img sqrtQ x y, g := sauvolaAt img sqrtQ x y,
            b := sauvolaAt img sqrtQ x y, a := 255 } : RGBA) = _
    rw [sauvolaAt, if_pos h]
  · right
    show ({ r := sauvolaAt img sqrtQ x y, g := sauvolaAt img sqrtQ x y,
            b := sauvolaAt img sqrtQ x y, a := 255 } : RGBA) = _
    rw [sauvolaAt, if_neg h]

/-! ## Claim C4: uniform input gives uniform output -/

theorem rowSum_const {img : Img} {c : ℚ}
    (hc : ∀ x y, x < img.width → y < img.height → lumaAt img x y = c)
    {y : ℕ} (hy : y < img.height) :
    ∀ x, x < img.width → rowSum img y x = c * (x + 1) := by
  intro x
  induction x with
  | zero =>
      intro hx
      rw [rowSum, hc 0 y hx hy]
      norm_num
  | succ n ih =>
      intro hx
      have hn : n < img.width := Nat.lt_of_succ_lt hx
      rw [rowSum, ih hn, hc (n + 1) y hx hy]
      push_cast
      ring

theorem rowSumSq_const {img : Img} {c : ℚ}
    (hc : ∀ x y, x < img.width → y < img.height → lumaAt img x y = c)
    {y : ℕ} (hy : y < img.height) :
    ∀ x, x < img.width → rowSumSq img y x = c * c * (x + 1) := by
  intro x
  induction x with
  | zero =>
      intro hx
      rw [rowSumSq, hc 0 y hx hy]
      norm_num
  | succ n ih =>
      intro hx
      have hn : n < img.width := Nat.lt_of_succ_lt hx
      rw [rowSumSq, ih hn, hc (n + 1) y hx hy]
      push_cast
      ring

theorem integral_const {img : Img} {c : ℚ}
    (hc : ∀ x y, x < img.width → y < img.height → lumaAt img x y = c) :
    ∀ y, y < img.height → ∀ x, x < img.width →
      integral img y x = c * (x + 1) * (y + 1) := by
  intro y
  induction y with
  | zero =>
      intro hy x hx
      rw [integral, rowSum_const hc hy x hx]
      norm_num
  | succ n ih =>
      intro hy x hx
      have hn : n < img.height := Nat.lt_of_succ_lt hy
      rw [integral, ih hn x hx, rowSum_const hc hy x hx]
      push_cast
      ring

theorem integralSq_const {img : Img} {c : ℚ}
    (hc : ∀ x y, x < img.width → y < img.height → lumaAt img x y = c) :
    ∀ y, y < img.height → ∀ x, x < img.width →
      integralSq img y x = c * c * (x + 1) * (y + 1) := by
  intro y
  induction y with
  | zero =>
      intro hy x hx
      rw [integralSq, rowSumSq_const hc hy x hx]
      norm_num
  | succ n ih =>
      intro hy x hx
      have hn : n < img.height := Nat.lt_of_succ_lt hy
      rw [integralSq, ih hn x hx, rowSumSq_const hc hy x hx]
      push_cast
      ring

theorem localSum_const {img : Img} {c : ℚ}
    (hc : ∀ x y, x < img.width → y < img.height → lumaAt img x y = c)
    {x1 y1 x2 y2 : ℕ} (hx12 : x1 ≤ x2) (hy12 : y1 ≤ y2)
    (hx2 : x2 < img.width) (hy2 : y2 < img.height) :
    localSum img x1 y1 x2 y2 = c * ((x2 : ℚ) + 1 - x1) * ((y2 : ℚ) + 1 - y1) := by
  have hx1w : x1 - 1 < img.width := lt_of_le_of_lt (le_trans (Nat.sub_le _ _) hx12) hx2
  have hy1h : y1 - 1 < img.height := lt_of_le_of_lt (le_trans (Nat.sub_le _ _) hy12) hy2
  rw [localSum, integral_const hc y2 hy2 x2 hx2]
  rcases Nat.eq_zero_or_pos x1 with h1 | h1 <;> rcases Nat.eq_zero_or_pos y1 with h2 | h2
  · subst h1; subst h2
    norm_num
  · subst h1
    have hcast : ((y1 - 1 : ℕ) : ℚ) = (y1 : ℚ) - 1 := by
      push_cast [h2]
      ring
    rw [if_pos h2, if_neg (by norm_num), if_neg (by simp),
      integral_const hc (y1 - 1) hy1h x2 hx2, hcast]
    norm_num
    ring
  · subst h2
    have hcast : ((x1 - 1 : ℕ) : ℚ) = (x1 : ℚ) - 1 := by
      push_cast [h1]
      ring
    rw [if_neg (by norm_num), if_pos h1, if_neg (by simp),
      integral_const hc y2 hy2 (x1 - 1) hx1w, hcast]
    norm_num
    ring
  · have hcastx : ((x1 - 1 : ℕ) : ℚ) = (x1 : ℚ) - 1 := by
      push_cast [h1]
      ring
    have hcasty : ((y1 - 1 : ℕ) : ℚ) = (y1 : ℚ) - 1 := by
      push_cast [h2]
      ring
    rw [if_pos h2, if_pos h1, if_pos ⟨h1, h2⟩,
      integral_const hc (y1 - 1) hy1h x2 hx2,
      integral_const hc y2 hy2 (x1 - 1) hx1w,
      integral_const hc (y1 - 1) hy1h (x1 - 1) hx1w, hcastx, hcasty]
    ring

theorem localSumSq_const {img : Img} {c : ℚ}
    (hc : ∀ x y, x < img.width → y < img.height → lumaAt img x y = c)
    {x1 y1 x2 y2 : ℕ} (hx12 : x1 ≤ x2) (hy12 : y1 ≤ y2)
    (hx2 : x2 < img.width) (hy2 : y2 < img.height) :
    localSumSq img x1 y1 x2 y2
      = c * c * ((x2 : ℚ) + 1 - x1) * ((y2 : ℚ) + 1 - y1) := by
  have hx1w : x1 - 1 < img.width := lt_of_le_of_lt (le_trans (Nat.sub_le _ _) hx12) hx2
  have hy1h : y1 - 1 < img.height := lt_of_le_of_lt (le_trans (Nat.sub_le _ _) hy12) hy2
  rw [localSumSq, integralSq_const hc y2 hy2 x2 hx2]
  rcases Nat.eq_zero_or_pos x1 with h1 | h1 <;> rcases Nat.eq_zero_or_pos y1 with h2 | h2
  · subst h1; subst h2
    norm_num
  · subst h1
    have hcast : ((y1 - 1 : ℕ) : ℚ) = (y1 : ℚ) - 1 := by
      push_cast [h2]
      ring
    rw [if_pos h2, if_neg (by norm_num), if_neg (by simp),
      integralSq_const hc (y1 - 1) hy1h x2 hx2, hcast]
    norm_num
    ring
  · subst h2
    have hcast : ((x1 - 1 : ℕ) : ℚ) = (x1 : ℚ) - 1 := by
      push_cast [h1]
      ring
    rw [if_neg (by norm_num), if_pos h1, if_neg (by simp),
      integralSq_const hc y2 hy2 (x1 - 1) hx1w, hcast]
    norm_num
    ring
  · have hcastx : ((x1 - 1 : ℕ) : ℚ) = (x1 : ℚ) - 1 := by
      push_cast [h1]
      ring
    have hcasty : ((y1 - 1 : ℕ) : ℚ) = (y1 : ℚ) - 1 := by
      push_cast [h2]
      ring
    rw [if_pos h2, if_pos h1, if_pos ⟨h1, h2⟩,
      integralSq_const hc (y1 - 1) hy1h x2 hx2,
      integralSq_const hc y2 hy2 (x1 - 1) hx1w,
      integralSq_const hc (y1 - 1) hy1h (x1 - 1) hx1w, hcastx, hcasty]
    ring

/-- Sauvola's formula at a window whose raw sum is `c·N` and squared sum is
`c²·N`: the local variance vanishes and the threshold is `c·(1 - k) = 0.8c`. -/
theorem sauvola_formula_const (sqrtQ : ℚ → ℚ) (hs : sqrtQ 0 = 0)
    (c S SQ N : ℚ) (hN : N ≠ 0) (hS : S = c * N) (hSQ : SQ = c * c * N) :
    S / N * (1 + 0.2 * (sqrtQ (max 0 (SQ / N - S / N * (S / N))) / 128 - 1))
      = c * (4 / 5) := by
  subst hS
  subst hSQ
  have h1 : c * N / N = c := mul_div_cancel_right₀ c hN
  have h2 : c * c * N / N = c * c := mul_div_cancel_right₀ (c * c) hN
  rw [h1, h2, sub_self, max_self, hs]
  norm_num

/-- The threshold expression, over an arbitrary clipped window, on a
constant-luminance image. -/
theorem sauvolaT_const {img : Img} (sqrtQ : ℚ → ℚ) {c : ℚ} (hs : sqrtQ 0 = 0)
    (hc : ∀ x y, x < img.width → y < img.height → lumaAt img x y = c)
    {x1 y1 x2 y2 : ℕ} (hx12 : x1 ≤ x2) (hy12 : y1 ≤ y2)
    (hx2 : x2 < img.width) (hy2 : y2 < img.height) :
    localSum img x1 y1 x2 y2 / (((x2 - x1 + 1) * (y2 - y1 + 1) : ℕ) : ℚ)
      * (1 + 0.2 * (sqrtQ (max 0
          (localSumSq img x1 y1 x2 y2 / (((x2 - x1 + 1) * (y2 - y1 + 1) : ℕ) : ℚ)
            - localSum img x1 y1 x2 y2 / (((x2 - x1 + 1) * (y2 - y1 + 1) : ℕ) : ℚ)
              * (localSum img x1 y1 x2 y2
                  / (((x2 - x1 + 1) * (y2 - y1 + 1) : ℕ) : ℚ)))) / 128 - 1))
      = c * (4 / 5) := by
  have hNpos : 0 < (x2 - x1 + 1) * (y2 - y1 + 1) := by positivity
  have hN : (((x2 - x1 + 1) * (y2 - y1 + 1) : ℕ) : ℚ) ≠ 0 := by
    exact_mod_cast Nat.pos_iff_ne_zero.mp hNpos
  have hNval : (((x2 - x1 + 1) * (y2 - y1 + 1) : ℕ) : ℚ)
      = ((x2 : ℚ) + 1 - x1) * ((y2 : ℚ) + 1 - y1) := by
    push_cast [Nat.cast_sub hx12, Nat.cast_sub hy12]
    ring
  exact sauvola_formula_const sqrtQ hs c _ _ _ hN
    (by rw [localSum_const hc hx12 hy12 hx2 hy2, hNval]; ring)
    (by rw [localSumSq_const hc hx12 hy12 hx2 hy2, hNval]; ring)

theorem sauvolaThreshold_const {img : Img} (sqrtQ : ℚ → ℚ) {c : ℚ}
    (hs : sqrtQ 0 = 0)
    (hc : ∀ x y, x < img.width → y < img.height → lumaAt img x y = c)
    {x y : ℕ} (hx : x < img.width) (hy : y < img.height) :
    sauvolaThreshold img sqrtQ x y = c * (4 / 5) := by
  have hw : 0 < img.width := lt_of_le_of_lt (Nat.zero_le x) hx
  have hh : 0 < img.height := lt_of_le_of_lt (Nat.zero_le y) hy
  have hx12 : x - 20 ≤ min (img.width - 1) (x + 20) :=
    le_min (le_trans (Nat.sub_le x 20) (by omega))
      (le_trans (Nat.sub_le x 20) (Nat.le_add_right x 20))
  have hy12 : y - 20 ≤ min (img.height - 1) (y + 20) :=
    le_min (le_trans (Nat.sub_le y 20) (by omega))
      (le_trans (Nat.sub_le y 20) (Nat.le_add_right y 20))
  have hx2 : min (img.width - 1) (x + 20) < img.width :=
    lt_of_le_of_lt (min_le_left _ _) (Nat.sub_lt hw (by norm_num))
  have hy2 : min (img.height - 1) (y + 20) < img.height :=
    lt_of_le_of_lt (min_le_left _ _) (Nat.sub_lt hh (by norm_num))
  simp only [sauvolaThreshold]
  exact sauvolaT_const sqrtQ hs hc hx12 hy12 hx2 hy2

/-- Claim C4 (confirmed). For an input image of constant luminance `c` (zero
local variance everywhere), Sauvola binarization classifies every pixel to
the same side of its threshold `c·0.8`: the output is uniform — every
in-range pixel white when `c > 0`, every in-range pixel black otherwise —
never a mix. -/
theorem sauvola_uniform_input (img : Img) (sqrtQ : ℚ → ℚ) (c : ℚ)
    (hs : sqrtQ 0 = 0)
    (hc : ∀ x y, x < img.width → y < img.height → lumaAt img x y = c) :
    (∀ x y, x < img.width → y < img.height →
      (processImageWithSauvola sqrtQ img).data x y
        = { r := 255, g := 255, b := 255, a := 255 }) ∨
    (∀ x y, x < img.width → y < img.height →
      (processImageWithSauvola sqrtQ img).data x y
        = { r := 0, g := 0, b := 0, a := 255 }) := by
  by_cases h0 : 0 < c
  · left
    intro x y hx hy
    have hcond : lumaAt img x y > sauvolaThreshold img sqrtQ x y := by
      rw [hc x y hx hy, sauvolaThreshold_const sqrtQ hs hc hx hy]
      linarith
    show ({ r := sauvolaAt img sqrtQ x y, g := sauvolaAt img sqrtQ x y,
            b := sauvolaAt img sqrtQ x y, a := 255 } : RGBA) = _
    rw [sauvolaAt, if_pos hcond]
  · right
    intro x y hx hy
    have hcond : ¬ (lumaAt img x y > sauvolaThreshold img sqrtQ x y) := by
      rw [hc x y hx hy, sauvolaThreshold_const sqrtQ hs hc hx hy]
      push_neg at h0 ⊢
      linarith
    show ({ r := sauvolaAt img sqrtQ x y, g := sauvolaAt img sqrtQ x y,
            b := sauvolaAt img sqrtQ x y, a := 255 } : RGBA) = _
    rw [sauvolaAt, if_neg hcond]

def imgGray : Img :=
  { width := 2, height := 2, data := fun _ _ => { r := 100, g := 100, b := 100, a := 255 } }

/-- Witness for C4: a concrete 2×2 mid-gray image (the luma weights sum to
exactly 1, so its luminance is the constant 100) under the zero square-root
model; the conclusion is the uniform-output disjunction. -/
theorem sauvola_uniform_input_witness :
    ((fun _ : ℚ => (0 : ℚ)) 0 = 0) ∧
    (∀ x y, x < imgGray.width → y < imgGray.height → lumaAt imgGray x y = 100) ∧
    ((∀ x y, x < imgGray.width → y < imgGray.height →
        (processImageWithSauvola (fun _ => 0) imgGray).data x y
          = { r := 255, g := 255, b := 255, a := 255 }) ∨
      (∀ x y, x < imgGray.width → y < imgGray.height →
        (processImageWithSauvola (fun _ => 0) imgGray).data x y
          = { r := 0, g := 0, b := 0, a := 255 })) := by
  have hlum : ∀ x y, x < imgGray.width → y < imgGray.height → lumaAt imgGray x y = 100 := by
    intro x y _ _
    show luma { r := 100, g := 100, b := 100, a := 255 } = 100
    rw [luma]
    norm_num
  exact ⟨rfl, hlum, sauvola_uniform_input imgGray (fun _ => 0) 100 rfl hlum⟩

end Rambutan
